import Mathlib

/-!
Verification development for the gpt-os boundary-safe parallel ETL pipeline.

The Rust sources are embedded shallowly: byte buffers become `List Nat`
(each entry a byte value), strings become `String`, fallible functions
return `Except AppError`, and the stateful worker loops become explicit
folds over the sequence of processed records.  Loops with a mutable cursor
are written as structurally recursive functions on an explicit fuel
argument; in every case the fuel passed by the public wrapper equals the
exact maximal number of iterations the Rust loop can make (the cursor
strictly increases and is bounded by the buffer length), so the wrapper
computes the same value as the loop.
-/

namespace GptOs

/-- Rust `u8::is_ascii_whitespace`: space, tab, newline, form feed, carriage return. -/
def isAsciiWhitespaceB (b : Nat) : Bool :=
  b == 32 || b == 9 || b == 10 || b == 12 || b == 13

/-- Rust `u8::is_ascii_alphabetic`. -/
def isAsciiAlphaB (b : Nat) : Bool :=
  (65 ≤ b && b ≤ 90) || (97 ≤ b && b ≤ 122)

/-- ASCII bytes of a string literal (all names used here are ASCII). -/
def strBytes (s : String) : List Nat := s.toList.map Char.toNat

/-- Lexicographic order on character sequences.  For valid UTF-8 this is
exactly Rust's `Ord for String` (byte-lexicographic) order, because UTF-8
byte order agrees with code-point order. -/
def strLeList : List Char → List Char → Bool
  | [], _ => true
  | _ :: _, [] => false
  | a :: as, b :: bs =>
    if a.toNat < b.toNat then true
    else if b.toNat < a.toNat then false
    else strLeList as bs

/-- Rust `String` ordering, `a <= b`. -/
def strLeB (a b : String) : Bool := strLeList a.toList b.toList

/-- Rust `str::ends_with` for string arguments (an ASCII suffix matches on
bytes exactly when it matches on characters). -/
def endsWithB (s suffix : String) : Bool :=
  decide (suffix.toList.length ≤ s.toList.length) &&
  (s.toList.drop (s.toList.length - suffix.toList.length) == suffix.toList)

instance decRelOfBool {α : Type} (f : α → α → Bool) :
    DecidableRel (fun a b => f a b = true) :=
  fun a b => inferInstanceAs (Decidable (f a b = true))

/-! ## `src/xml_utils.rs`: the boundary scanner -/

/-- `xml_utils::CHUNK_SIZE`: target chunk size in bytes. -/
def CHUNK_SIZE : Nat := 2 * 1024 * 1024

/-- Loop body of `xml_utils::skip_whitespace`; fuel counts remaining iterations. -/
def skipWsFuel (data : List Nat) : Nat → Nat → Nat
  | 0, idx => idx
  | fuel + 1, idx =>
    if idx < data.length ∧ isAsciiWhitespaceB (data.getD idx 0) then
      skipWsFuel data fuel (idx + 1)
    else idx

/-- `xml_utils::skip_whitespace`: advance past whitespace, return new position.
The loop increments `idx` while `idx < data.len()`, so it makes at most
`data.len() - idx` iterations. -/
def skip_whitespace (data : List Nat) (idx : Nat) : Nat :=
  skipWsFuel data (data.length - idx) idx

/-- `xml_utils::is_element_start`: the slice begins with `<` followed by an
ASCII alphabetic byte. -/
def is_element_start (data : List Nat) : Bool :=
  match data with
  | a :: b :: _ => a == 60 && isAsciiAlphaB b
  | _ => false

/-- `xml_utils::advance_to_next_element`: position of the next element start
if it immediately follows (after whitespace) the given position. -/
def advance_to_next_element (data : List Nat) (start : Nat) : Option Nat :=
  let idx := skip_whitespace data start
  if idx < data.length ∧ is_element_start (data.drop idx) then some idx
  else none

/-- Loop body of `xml_utils::find_boundary_after`; fuel counts remaining
iterations of the `while start < len` loop. -/
def fbaFuel (data : List Nat) : Nat → Nat → Option Nat
  | 0, _ => none
  | fuel + 1, start =>
    if start < data.length then
      if data.getD start 0 == 62 then
        match advance_to_next_element data (start + 1) with
        | some pos => some pos
        | none => fbaFuel data fuel (start + 1)
      else fbaFuel data fuel (start + 1)
    else none

/-- `xml_utils::find_boundary_after`: scan forward from `start` for a `>`
followed by the start of a new element.  The loop increments `start` while
`start < len`, so `len - start` iterations are exactly enough. -/
def find_boundary_after (data : List Nat) (start : Nat) : Option Nat :=
  fbaFuel data (data.length - start) start

/-- Loop body of `xml_utils::find_chunk_boundaries`; each continuing
iteration strictly increases `pos`, so fuel `content.len() + 1` is enough. -/
def fcbLoopFuel (content : List Nat) : Nat → Nat → List Nat → List Nat
  | 0, _, acc => acc
  | fuel + 1, pos, acc =>
    if pos < content.length then
      let target_pos := min (pos + CHUNK_SIZE) content.length
      match find_boundary_after content target_pos with
      | some boundary_pos =>
        if boundary_pos < content.length then
          fcbLoopFuel content fuel boundary_pos (acc ++ [boundary_pos])
        else acc
      | none => acc
    else acc

/-- `xml_utils::find_chunk_boundaries`: walk the input in roughly
`CHUNK_SIZE` steps, aligning every split with the start of an element, and
always close the list with the total length unless it is already last. -/
def find_chunk_boundaries (content : List Nat) : List Nat :=
  let boundaries := fcbLoopFuel content (content.length + 1) 0 [0]
  if boundaries.getLast? == some content.length then boundaries
  else boundaries ++ [content.length]

/-! ## `src/apple_health/extractor.rs`: the extractor's boundary scanner -/

/-- `apple_health::extractor::CHUNK_SIZE` (1MB chunks). -/
def AH_CHUNK_SIZE : Nat := 1024 * 1024

/-- `apple_health::extractor::TARGET_ELEMENTS`. -/
def TARGET_ELEMENTS : List (List Nat) :=
  [strBytes "Record", strBytes "Workout", strBytes "ActivitySummary"]

/-- `AppleHealthExtractor::is_target_element_start`: the slice starts with
`<Name` for a target element name, followed by whitespace or `>`. -/
def is_target_element_start (data : List Nat) : Bool :=
  TARGET_ELEMENTS.any (fun elem =>
    let pattern := 60 :: elem
    decide (pattern.length + 1 ≤ data.length) &&
    (data.take pattern.length == pattern) &&
    (isAsciiWhitespaceB (data.getD pattern.length 0) || data.getD pattern.length 0 == 62))

/-- Inner scan of `AppleHealthExtractor::find_chunk_boundaries`: from the
target position, walk forward looking for `>` followed (after whitespace)
by `<` starting a target element; fuel counts remaining iterations of the
`while boundary_pos > pos && boundary_pos < content_len` loop. -/
def ahScanFuel (content : List Nat) (pos : Nat) : Nat → Nat → Nat
  | 0, bp => bp
  | fuel + 1, bp =>
    if pos < bp ∧ bp < content.length then
      if content.getD bp 0 == 62 then
        let next_pos := skip_whitespace content (bp + 1)
        if next_pos < content.length ∧ content.getD next_pos 0 == 60 ∧
            is_target_element_start (content.drop next_pos) then
          next_pos
        else ahScanFuel content pos fuel (bp + 1)
      else ahScanFuel content pos fuel (bp + 1)
    else bp

/-- Wrapper for the inner scan with its exact iteration bound: the cursor
increments while `bp < content.len()`. -/
def ahScanBoundary (content : List Nat) (pos bp : Nat) : Nat :=
  ahScanFuel content pos (content.length - bp) bp

/-- Loop body of `AppleHealthExtractor::find_chunk_boundaries`; pushes the
found boundary while it lies strictly between `pos` and the length. -/
def ahFcbLoopFuel (content : List Nat) : Nat → Nat → List Nat → List Nat
  | 0, _, acc => acc
  | fuel + 1, pos, acc =>
    if pos < content.length then
      let target_pos := min (pos + AH_CHUNK_SIZE) content.length
      let boundary_pos := ahScanBoundary content pos target_pos
      if pos < boundary_pos ∧ boundary_pos < content.length then
        ahFcbLoopFuel content fuel boundary_pos (acc ++ [boundary_pos])
      else acc
    else acc

/-- `AppleHealthExtractor::find_chunk_boundaries`. -/
def ah_find_chunk_boundaries (content : List Nat) : List Nat :=
  let boundaries := ahFcbLoopFuel content (content.length + 1) 0 [0]
  if boundaries.getLast? == some content.length then boundaries
  else boundaries ++ [content.length]

/-! ## Data model

The pipeline is generic over the `Processable` trait (`src/core.rs`): a
record exposes `grouping_key() -> String`, an optional `sort_key()`, and
(through the `CsvWritable` trait of `src/sinks/csv_zip.rs`) its attribute
keys and values for tabular output.  `HRecord` embeds that interface as a
record of those observations; the pipeline code never inspects anything
else of a record. -/
structure HRecord where
  gkey : String
  sk : Option String
  fields : List (String × String)
deriving DecidableEq, Inhabited

/-- `grouping_key()` of a record. -/
def HRecord.grouping_key (r : HRecord) : String := r.gkey

/-- `sort_key()` of a record. -/
def HRecord.sort_key (r : HRecord) : Option String := r.sk

/-- `CsvWritable::header_keys`: the attribute keys used for CSV headers.
Modelled from the spec: the trait impl for the record types is not under
`src/`; the spec says a record exposes "a way to enumerate its field
names/values for tabular output", so the keys are the first components of
the record's field list. -/
def HRecord.header_keys (r : HRecord) : List String := r.fields.map Prod.fst

/-- `src/error.rs`: the `AppError` enum.  Every variant carries its display
payload as a string; note the enum has no `NotFound` variant. -/
inductive AppError where
  | ParseError (msg : String)
  | IoError (msg : String)
  | CsvError (msg : String)
  | ZipArchiveError (msg : String)
  | SevenZError (msg : String)
  | ThreadPoolError (msg : String)
  | Unknown (msg : String)
deriving DecidableEq

/-- Discriminator: is the value the `Err` case? -/
def exceptIsError {α : Type} (e : Except AppError α) : Bool :=
  match e with
  | Except.error _ => true
  | Except.ok _ => false

/-! ## `src/core.rs`: the grouping stage (`transformer::transform`)

Each worker executes `grouped_records.entry(record.grouping_key())
.or_default().push(record)` for every record it receives.  The concurrent
map is embedded as an association list; a single insertion appends the
record to its key's vector, creating the entry on first use.  The whole
parallel run is the fold of these insertions over the records in the order
the workers performed them, which is some permutation of the input stream
(each channel message is delivered to exactly one worker). -/
def addRecord (m : List (String × List HRecord)) (r : HRecord) :
    List (String × List HRecord) :=
  match m with
  | [] => [(r.grouping_key, [r])]
  | (k, v) :: rest =>
    if k = r.grouping_key then (k, v ++ [r]) :: rest
    else (k, v) :: addRecord rest r

/-- The grouping stage run over records in a given processing order. -/
def transform (input : List HRecord) : List (String × List HRecord) :=
  input.foldl addRecord []

/-- The record vector stored under a key (empty when the key is absent). -/
def groupOf (m : List (String × List HRecord)) (k : String) : List HRecord :=
  ((m.find? (fun p => p.1 == k)).map Prod.snd).getD []

/-- The keys of the grouped map. -/
def keysOf (m : List (String × List HRecord)) : List String := m.map Prod.fst

/-- Total number of records held by the grouped map. -/
def totalCount (m : List (String × List HRecord)) : Nat :=
  (m.map (fun p => p.2.length)).sum

/-! ## `src/sinks/csv_zip.rs` and `src/sinks/csv_7z.rs` -/

/-- `csv_zip::reorder_by_indices`: permute `items` in place so that position
`i` receives the element previously at `order[i]` (the Rust code copies
`items[order[j]]` into a scratch buffer slot `j` and moves the buffer
back).  Out-of-range reads cannot happen for the index arrays the sink
builds; the embedding totalizes them with `default`. -/
def reorder_by_indices {α : Type} [Inhabited α] (items : List α) (order : List Nat) :
    List α :=
  if items.length ≤ 1 then items
  else order.map (fun i => items.getD i default)

/-- Rust `Option<&str>` ordering used by `sort_unstable_by_key` in
`create_mini_zip`: `None` is less than every `Some`, and `Some` values
compare by the string order. -/
def optLeB : Option String → Option String → Bool
  | none, _ => true
  | some _, none => false
  | some a, some b => strLeB a b

/-- Index comparison used by the `indices.sort_unstable_by_key` call of
`create_mini_zip`: indices compare by the `Option<&str>` sort keys they
point at. -/
def idxLe (sort_keys : List (Option String)) (i j : Nat) : Prop :=
  optLeB (sort_keys.getD i none) (sort_keys.getD j none) = true

instance idxLeDec (sort_keys : List (Option String)) : DecidableRel (idxLe sort_keys) :=
  fun i j =>
    inferInstanceAs (Decidable (optLeB (sort_keys.getD i none) (sort_keys.getD j none) = true))

/-- Record order produced by `csv_zip::create_mini_zip` (lines 131-147): if
any record has a sort key, sort an index array by the `Option<&str>` sort
keys and permute the records by it; otherwise leave the records as given.
The source's `sort_unstable_by_key` leaves the relative order of equal keys
unspecified; this embedding sorts the index array with insertion sort,
which agrees with any correct sort whenever the keys are pairwise
distinct. -/
def create_mini_zip_order (recs : List HRecord) : List HRecord :=
  let sort_keys := recs.map (fun r => r.sort_key)
  if recs.any (fun r => r.sort_key.isSome) then
    let indices := List.insertionSort (idxLe sort_keys) (List.range recs.length)
    reorder_by_indices recs indices
  else recs

/-- Effective sort key used by `csv_7z::create_csv_buffer`:
`r.sort_key().unwrap_or_default()`. -/
def effKey (r : HRecord) : String := r.sort_key.getD ""

/-- Record order produced by `csv_7z::create_csv_buffer` (line 113):
`recs.sort_by_key(|r| r.sort_key().unwrap_or_default())`.  Rust's
`sort_by_key` is a stable sort by the key, embedded as insertion sort
(stable, so extensionally equal to the source's stable sort). -/
def create_csv_buffer_order (recs : List HRecord) : List HRecord :=
  List.insertionSort (fun a b => strLeB (effKey a) (effKey b) = true) recs

/-- `filter_entries` (identical in both sinks): drop empty groups, then
sort the entries by group key (`entries.sort_by(|a, b| a.0.cmp(&b.0))`,
a stable sort embedded as insertion sort). -/
def filter_entries (m : List (String × List HRecord)) :
    List (String × List HRecord) :=
  List.insertionSort (fun a b => strLeB a.1 b.1 = true)
    (m.filter (fun p => !p.2.isEmpty))

/-- Names written into the final container by `csv_zip::spawn_merger`: the
merge thread appends each received mini-zip (whose single member is
`"{name}.csv"`) in channel-arrival order. -/
def mergerNames (arrivals : List (String × List HRecord)) : List String :=
  arrivals.map (fun p => p.1 ++ ".csv")

/-- Header set built by `create_mini_zip` (lines 149-155): the keys of all
records, collected into a set (first occurrences kept; the set is sorted
afterwards so the collection order is irrelevant). -/
def headerSet (recs : List HRecord) : List String :=
  (recs.foldl (fun acc r => acc ++ r.header_keys) []).dedup

/-- Sorted dynamic header row of `create_mini_zip` (`headers.sort_unstable()`;
the set elements are pairwise distinct, so any correct sort produces this
list). -/
def headersOf (recs : List HRecord) : List String :=
  List.insertionSort (fun a b => strLeB a b = true) (headerSet recs)

/-- Cell rendered for header `h` of record `r`.
Modelled from the spec: the `CsvWritable::write` impl for the record types
is not under `src/`; the spec says "missing fields render as empty", so the
cell is the record's value for the field when present and `""` otherwise. -/
def cellOf (r : HRecord) (h : String) : String :=
  ((r.fields.find? (fun p => p.1 == h)).map Prod.snd).getD ""

/-- Data row written for record `r` under the header row `hs`. -/
def renderRow (hs : List String) (r : HRecord) : List String :=
  hs.map (cellOf r)

/-! ## `src/apple_health/extractor.rs`: error paths -/

/-- Observable behaviour of the extraction thread spawned by
`AppleHealthExtractor::extract` (lines 42-59): the records it managed to
send on the channel before finishing, and the `Result` its closure ended
with. -/
structure ExtractOutcome where
  sent : List HRecord
  result : Except AppError Unit

/-- `AppleHealthExtractor::extract` (lines 38-62) as seen by its caller:
the function returns `Ok(receiver)` immediately; the spawned thread's
terminal result is consumed by `if let Err(_) = result {}` (the error is
discarded, the channel simply closes), so the caller observes the sent
records in both cases. -/
def apple_health_extract (o : ExtractOutcome) : Except AppError (List HRecord) :=
  match o.result with
  | Except.ok _ => Except.ok o.sent
  | Except.error _ => Except.ok o.sent

/-- `AppleHealthExtractor::extract_xml_from_zip` (lines 167-187): a ZIP
archive is embedded as its member list (name, content bytes); the function
returns the content of the first member whose name ends in `export.xml`,
and otherwise the `ParseError` below. -/
def extract_xml_from_zip (archive : List (String × List Nat)) :
    Except AppError (List Nat) :=
  match archive.find? (fun p => endsWithB p.1 "export.xml") with
  | some p => Except.ok p.2
  | none =>
    Except.error (AppError.ParseError "Could not find export.xml in the zip archive")

/-- Records produced by the ZIP branch of `extract` (line 46): on a
`ParseError` from `extract_xml_from_zip` the thread terminates before
`process_memory_chunks`, so nothing is sent. -/
def zip_extract_records (archive : List (String × List Nat))
    (proc : List Nat → List HRecord) : List HRecord :=
  match extract_xml_from_zip archive with
  | Except.ok content => proc content
  | Except.error _ => []

/-! ## Test-input predicate for the boundary-safety claim -/

/-- A fixed self-closing element as used by the boundary-safety property:
at least `<a/>` long, opening `<` followed by an ASCII letter, closing with
`/>`, and containing no other `<` byte (well-formed XML forbids a raw `<`
inside a tag).  Only the opening-byte uniqueness is needed to locate
element starts inside a repetition of the element. -/
def isSelfClosingElem (e : List Nat) : Bool :=
  decide (4 ≤ e.length) &&
  (e.getD 0 0 == 60) &&
  isAsciiAlphaB (e.getD 1 0) &&
  (e.getD (e.length - 2) 0 == 47) &&
  (e.getD (e.length - 1) 0 == 62) &&
  ((List.range e.length).all (fun i => i == 0 || !(e.getD i 0 == 60)))

/-- Helper used to state C5 and C6: is the result an `Err` of the `IoError`
variant? -/
def isIoErrorResult {α : Type} : Except AppError α → Bool
  | Except.error (AppError.IoError _) => true
  | _ => false

/-! ## Basic facts about the string order -/

lemma strLeList_refl (a : List Char) : strLeList a a = true := by
  induction a with
  | nil => rfl
  | cons c t ih => simp [strLeList, ih]

lemma strLeList_total (a b : List Char) : strLeList a b = true ∨ strLeList b a = true := by
  induction a generalizing b with
  | nil => left; rfl
  | cons c t ih =>
    cases b with
    | nil => right; rfl
    | cons d u =>
      rcases Nat.lt_trichotomy c.toNat d.toNat with h | h | h
      · left; simp [strLeList, h]
      · rcases ih u with h' | h' <;> [left; right] <;>
          simp [strLeList, h, Nat.lt_irrefl, h']
      · right; simp [strLeList, h]

lemma strLeList_trans {a b c : List Char} (hab : strLeList a b = true)
    (hbc : strLeList b c = true) : strLeList a c = true := by
  induction a generalizing b c with
  | nil => rfl
  | cons x t ih =>
    cases b with
    | nil => simp [strLeList] at hab
    | cons y u =>
      cases c with
      | nil => simp [strLeList] at hbc
      | cons z v =>
        simp only [strLeList] at hab hbc ⊢
        by_cases hxy : x.toNat < y.toNat
        · by_cases hyz : y.toNat < z.toNat
          · simp [Nat.lt_trans hxy hyz]
          · simp only [hyz, if_false] at hbc
            by_cases hzy : z.toNat < y.toNat
            · simp [hzy] at hbc
            · have : y.toNat = z.toNat := Nat.le_antisymm (Nat.le_of_not_lt hzy) (Nat.le_of_not_lt hyz)
              simp [this ▸ hxy]
        · simp only [hxy, if_false] at hab
          by_cases hyx : y.toNat < x.toNat
          · simp [hyx] at hab
          · have hxy' : x.toNat = y.toNat := Nat.le_antisymm (Nat.le_of_not_lt hyx) (Nat.le_of_not_lt hxy)
            by_cases hyz : y.toNat < z.toNat
            · simp [hxy' ▸ hyz]
            · simp only [hyz, if_false] at hbc
              by_cases hzy : z.toNat < y.toNat
              · simp [hzy] at hbc
              · have hyz' : y.toNat = z.toNat := Nat.le_antisymm (Nat.le_of_not_lt hzy) (Nat.le_of_not_lt hyz)
                have hxz : ¬ x.toNat < z.toNat := by omega
                have hzx : ¬ z.toNat < x.toNat := by omega
                rw [if_neg hyx] at hab
                rw [if_neg hzy] at hbc
                simp [hxz, hzx, ih hab hbc]

lemma strLeB_refl (a : String) : strLeB a a = true := strLeList_refl _

lemma strLeB_total (a b : String) : strLeB a b = true ∨ strLeB b a = true :=
  strLeList_total _ _

lemma strLeB_trans {a b c : String} (hab : strLeB a b = true) (hbc : strLeB b c = true) :
    strLeB a c = true := strLeList_trans hab hbc

lemma optLeB_total (a b : Option String) : optLeB a b = true ∨ optLeB b a = true := by
  cases a <;> cases b <;> simp [optLeB, strLeB_total]

lemma optLeB_trans {a b c : Option String} (hab : optLeB a b = true)
    (hbc : optLeB b c = true) : optLeB a c = true := by
  cases a <;> cases b <;> cases c <;> simp_all [optLeB]
  exact strLeB_trans hab hbc

/-! ## C5: error surfacing of `AppleHealthExtractor::extract` -/

/-- C5 (amended): `AppleHealthExtractor::extract` never surfaces the spawned
task's failure to its caller — it returns `Ok(receiver)` whatever the task's
terminal result was, so the caller only ever observes the records sent
before the failure. -/
theorem apple_health_extract_swallows_errors (o : ExtractOutcome) :
    apple_health_extract o = Except.ok o.sent := by
  unfold apple_health_extract
  cases o.result <;> rfl

/-- C5 counterexample: a task that died with an unrecoverable read error
still yields `Ok` at the top level — the failure is not surfaced as an
error, contradicting the claim. -/
theorem apple_health_extract_counterexample :
    apple_health_extract ⟨[], Except.error (AppError.ParseError "Read error: mid-stream")⟩ =
      Except.ok []
    ∧ exceptIsError
        (apple_health_extract ⟨[], Except.error (AppError.ParseError "Read error: mid-stream")⟩) =
      false :=
  ⟨rfl, rfl⟩

/-! ## C6: missing `export.xml` member -/

/-- C6 (amended): when no member name of the ZIP ends in `export.xml`, the
source reader fails with `AppError::ParseError("Could not find export.xml in
the zip archive")` — the error enum has no `NotFound` variant — and the
extraction thread produces no records. -/
theorem extract_xml_from_zip_missing_member (archive : List (String × List Nat))
    (h : ∀ p ∈ archive, endsWithB p.1 "export.xml" = false) :
    extract_xml_from_zip archive =
      Except.error (AppError.ParseError "Could not find export.xml in the zip archive")
    ∧ ∀ proc, zip_extract_records archive proc = [] := by
  have hf : archive.find? (fun p => endsWithB p.1 "export.xml") = none :=
    List.find?_eq_none.2 (fun p hp => by simp [h p hp])
  refine ⟨?_, fun proc => ?_⟩
  · unfold extract_xml_from_zip
    rw [hf]
  · unfold zip_extract_records extract_xml_from_zip
    rw [hf]

/-- C6 witness: a concrete archive with a single non-matching member. -/
theorem extract_xml_from_zip_missing_member_witness :
    (∀ p ∈ [("data.csv", [100, 97])], endsWithB p.1 "export.xml" = false)
    ∧ (extract_xml_from_zip [("data.csv", [100, 97])] =
        Except.error (AppError.ParseError "Could not find export.xml in the zip archive")
      ∧ ∀ proc, zip_extract_records [("data.csv", [100, 97])] proc = []) :=
  ⟨by decide, extract_xml_from_zip_missing_member [("data.csv", [100, 97])] (by decide)⟩

/-- C6 counterexample: on a container without the expected member the
returned variant is `ParseError`, not an `IoError`/`NotFound` (the error
enum of `src/error.rs` has no `NotFound` variant at all). -/
theorem extract_xml_from_zip_variant_counterexample :
    extract_xml_from_zip [("data.csv", [100, 97])] =
      Except.error (AppError.ParseError "Could not find export.xml in the zip archive")
    ∧ isIoErrorResult (extract_xml_from_zip [("data.csv", [100, 97])]) = false :=
  ⟨rfl, rfl⟩

/-! ## C10: `reorder_by_indices` -/

lemma map_getD_range {α : Type} [Inhabited α] (l : List α) :
    (List.range l.length).map (fun i => l.getD i default) = l := by
  induction l with
  | nil => rfl
  | cons a t ih =>
    rw [List.length_cons, List.range_succ_eq_map, List.map_cons, List.map_map]
    have : ((fun i => (a :: t).getD i default) ∘ Nat.succ) = fun i => t.getD i default := by
      funext i
      simp [List.getD]
    rw [this, ih]
    simp [List.getD]

lemma reorder_eq_map {α : Type} [Inhabited α] (items : List α) (order : List Nat)
    (h : order.Perm (List.range items.length)) :
    reorder_by_indices items order = order.map (fun i => items.getD i default) := by
  unfold reorder_by_indices
  rcases items with _ | ⟨a, _ | ⟨b, t⟩⟩
  · simp only [List.length_nil, List.range_zero, List.perm_nil] at h
    simp [h]
  · simp only [List.length_cons, List.length_nil, List.range_succ, List.range_zero,
      List.nil_append, List.perm_singleton] at h
    simp [h, List.getD]
  · rw [if_neg]
    simp

lemma reorder_perm {α : Type} [Inhabited α] (items : List α) (order : List Nat)
    (h : order.Perm (List.range items.length)) :
    (reorder_by_indices items order).Perm items := by
  rw [reorder_eq_map items order h]
  have := h.map (fun i => items.getD i default)
  rw [map_getD_range] at this
  exact this

/-- C10: when `order` is a permutation of `0..items.len()`, the reordered
slice holds at position `i` the element previously at `order[i]`, and the
result is a permutation of the input (nothing duplicated or lost). -/
theorem reorder_by_indices_spec {α : Type} [Inhabited α] (items : List α)
    (order : List Nat) (hlen : order.length = items.length)
    (hperm : order.Perm (List.range items.length)) :
    (∀ i, i < items.length →
      (reorder_by_indices items order).get? i = items.get? (order.getD i 0))
    ∧ (reorder_by_indices items order).Perm items := by
  refine ⟨fun i hi => ?_, reorder_perm items order hperm⟩
  rw [reorder_eq_map items order hperm, List.get?_map]
  have hio : i < order.length := by omega
  rw [List.get?_eq_get hio]
  have hmem : order.get ⟨i, hio⟩ ∈ order := List.get_mem order i hio
  have hlt : order.get ⟨i, hio⟩ < items.length :=
    List.mem_range.1 (hperm.subset hmem)
  have hgd : order.getD i 0 = order.get ⟨i, hio⟩ := by
    rw [List.getD_eq_get?, List.get?_eq_get hio]
    rfl
  rw [hgd, List.get?_eq_get hlt]
  simp only [Option.map_some']
  rw [List.getD_eq_get?, List.get?_eq_get hlt]
  rfl

/-- C10 witness: a concrete permutation of three elements. -/
theorem reorder_by_indices_spec_witness :
    ([2, 0, 1] : List Nat).length = (["x", "y", "z"] : List String).length
    ∧ ([2, 0, 1] : List Nat).Perm (List.range (["x", "y", "z"] : List String).length)
    ∧ ((∀ i, i < (["x", "y", "z"] : List String).length →
        (reorder_by_indices ["x", "y", "z"] [2, 0, 1]).get? i =
          (["x", "y", "z"] : List String).get? (([2, 0, 1] : List Nat).getD i 0))
      ∧ (reorder_by_indices ["x", "y", "z"] [2, 0, 1]).Perm ["x", "y", "z"]) :=
  ⟨rfl, by decide, reorder_by_indices_spec ["x", "y", "z"] [2, 0, 1] rfl (by decide)⟩

/-! ## C8: boundary-scanner edge cases -/

lemma fcbLoopFuel_succ (content : List Nat) (fuel pos : Nat) (acc : List Nat) :
    fcbLoopFuel content (fuel + 1) pos acc =
      if pos < content.length then
        match find_boundary_after content (min (pos + CHUNK_SIZE) content.length) with
        | some boundary_pos =>
          if boundary_pos < content.length then
            fcbLoopFuel content fuel boundary_pos (acc ++ [boundary_pos])
          else acc
        | none => acc
      else acc := rfl

lemma ahFcbLoopFuel_succ (content : List Nat) (fuel pos : Nat) (acc : List Nat) :
    ahFcbLoopFuel content (fuel + 1) pos acc =
      if pos < content.length then
        if pos < ahScanBoundary content pos (min (pos + AH_CHUNK_SIZE) content.length) ∧
            ahScanBoundary content pos (min (pos + AH_CHUNK_SIZE) content.length) <
              content.length then
          ahFcbLoopFuel content fuel
            (ahScanBoundary content pos (min (pos + AH_CHUNK_SIZE) content.length))
            (acc ++ [ahScanBoundary content pos (min (pos + AH_CHUNK_SIZE) content.length)])
        else acc
      else acc := rfl

/-- C8 (amended): on the empty input both boundary scanners return `[0]`
(a single boundary, not `[0, 0]`); on a non-empty input shorter than the
respective target chunk size they return `[0, length]`. -/
theorem chunk_boundaries_edge_cases (content : List Nat) (h0 : content ≠ []) :
    (content.length < CHUNK_SIZE → find_chunk_boundaries content = [0, content.length])
    ∧ (content.length < AH_CHUNK_SIZE →
        ah_find_chunk_boundaries content = [0, content.length])
    ∧ find_chunk_boundaries [] = [0]
    ∧ ah_find_chunk_boundaries [] = [0] := by
  have hpos : 0 < content.length := List.length_pos.2 h0
  have hlast : ([0] : List Nat).getLast? = some 0 := rfl
  have hne : ((some 0 : Option Nat) == some content.length) = false := by
    simp only [beq_eq_false_iff_ne, ne_eq, Option.some.injEq]
    omega
  refine ⟨fun hsz => ?_, fun hsz => ?_, rfl, rfl⟩
  · have hmin : min (0 + CHUNK_SIZE) content.length = content.length := by
      simp only [CHUNK_SIZE] at hsz ⊢
      omega
    have hfba : find_boundary_after content content.length = none := by
      unfold find_boundary_after
      rw [Nat.sub_self]
      rfl
    have hloop : fcbLoopFuel content (content.length + 1) 0 [0] = [0] := by
      rw [fcbLoopFuel_succ, if_pos hpos, hmin, hfba]
    simp only [find_chunk_boundaries, hloop, hlast, hne]
    rfl
  · have hmin : min (0 + AH_CHUNK_SIZE) content.length = content.length := by
      simp only [AH_CHUNK_SIZE] at hsz ⊢
      omega
    have hscan : ahScanBoundary content 0 content.length = content.length := by
      unfold ahScanBoundary
      rw [Nat.sub_self]
      rfl
    have hloop : ahFcbLoopFuel content (content.length + 1) 0 [0] = [0] := by
      rw [ahFcbLoopFuel_succ, if_pos hpos, hmin, hscan, if_neg (by omega)]
    simp only [ah_find_chunk_boundaries, hloop, hlast, hne]
    rfl

/-- C8 witness: a one-byte input. -/
theorem chunk_boundaries_edge_cases_witness :
    find_chunk_boundaries [65] = [0, 1] ∧ ah_find_chunk_boundaries [65] = [0, 1] :=
  ⟨(chunk_boundaries_edge_cases [65] (by decide)).1 (by decide),
    (chunk_boundaries_edge_cases [65] (by decide)).2.1 (by decide)⟩

/-- C8 counterexample: on the empty input the scanners return `[0]`, not the
`[0, 0]` the claim states. -/
theorem chunk_boundaries_empty_counterexample :
    find_chunk_boundaries [] = [0] ∧ ah_find_chunk_boundaries [] = [0]
    ∧ find_chunk_boundaries [] ≠ [0, 0] ∧ ah_find_chunk_boundaries [] ≠ [0, 0] := by
  refine ⟨rfl, rfl, ?_, ?_⟩ <;> decide

/-! ## C2/C9: the grouping stage -/

lemma groupOf_nil (k : String) : groupOf [] k = [] := rfl

lemma groupOf_cons (k' : String) (v : List HRecord) (rest : List (String × List HRecord))
    (k : String) :
    groupOf ((k', v) :: rest) k = if k' = k then v else groupOf rest k := by
  by_cases h : k' = k
  · have hb : (k' == k) = true := by simp [h]
    simp [groupOf, List.find?, hb, h]
  · have hb : (k' == k) = false := by simp [h]
    simp [groupOf, List.find?, hb, h]

lemma groupOf_addRecord (m : List (String × List HRecord)) (r : HRecord) (k : String) :
    groupOf (addRecord m r) k =
      groupOf m k ++ (if r.grouping_key = k then [r] else []) := by
  induction m with
  | nil =>
    by_cases h : r.grouping_key = k
    · simp [addRecord, groupOf_cons, groupOf_nil, h]
    · simp [addRecord, groupOf_cons, groupOf_nil, h]
  | cons p rest ih =>
    obtain ⟨k', v⟩ := p
    by_cases hk : k' = r.grouping_key
    · simp only [addRecord, if_pos hk, groupOf_cons]
      by_cases h : k' = k
      · have hg : r.grouping_key = k := hk ▸ h
        rw [if_pos h, if_pos h, if_pos hg]
      · have hg : ¬ r.grouping_key = k := fun hc => h (hk.trans hc)
        rw [if_neg h, if_neg h, if_neg hg, List.append_nil]
    · simp only [addRecord, if_neg hk, groupOf_cons]
      by_cases h : k' = k
      · have hg : ¬ r.grouping_key = k := fun hc => hk (h.trans hc.symm)
        rw [if_pos h, if_pos h, if_neg hg, List.append_nil]
      · rw [if_neg h, if_neg h, ih]

lemma groupOf_foldl (l : List HRecord) (acc : List (String × List HRecord)) (k : String) :
    groupOf (l.foldl addRecord acc) k =
      groupOf acc k ++ l.filter (fun r => r.grouping_key == k) := by
  induction l generalizing acc with
  | nil => simp
  | cons r t ih =>
    rw [List.foldl_cons, ih, groupOf_addRecord]
    by_cases h : r.grouping_key = k
    · simp [List.filter_cons, h]
    · simp [List.filter_cons, h]

lemma groupOf_transform (l : List HRecord) (k : String) :
    groupOf (transform l) k = l.filter (fun r => r.grouping_key == k) := by
  unfold transform
  rw [groupOf_foldl, groupOf_nil, List.nil_append]

lemma keysOf_addRecord (m : List (String × List HRecord)) (r : HRecord) (k : String) :
    k ∈ keysOf (addRecord m r) ↔ k ∈ keysOf m ∨ k = r.grouping_key := by
  induction m with
  | nil => simp [addRecord, keysOf, eq_comm]
  | cons p rest ih =>
    obtain ⟨k', v⟩ := p
    by_cases hk : k' = r.grouping_key
    · subst hk
      simp [addRecord, keysOf]
      tauto
    · simp only [addRecord, if_neg hk, keysOf, List.map_cons, List.mem_cons] at *
      tauto

lemma keysOf_foldl (l : List HRecord) (acc : List (String × List HRecord)) (k : String) :
    k ∈ keysOf (l.foldl addRecord acc) ↔
      k ∈ keysOf acc ∨ ∃ r ∈ l, r.grouping_key = k := by
  induction l generalizing acc with
  | nil => simp
  | cons r t ih =>
    rw [List.foldl_cons, ih, keysOf_addRecord]
    simp only [List.mem_cons]
    constructor
    · rintro (⟨h | h⟩ | ⟨s, hs, hk⟩)
      · exact Or.inl h
      · exact Or.inr ⟨r, Or.inl rfl, h.symm⟩
      · exact Or.inr ⟨s, Or.inr hs, hk⟩
    · rintro (h | ⟨s, (rfl | hs), hk⟩)
      · exact Or.inl (Or.inl h)
      · exact Or.inl (Or.inr hk.symm)
      · exact Or.inr ⟨s, hs, hk⟩

lemma keysOf_transform (l : List HRecord) (k : String) :
    k ∈ keysOf (transform l) ↔ ∃ r ∈ l, r.grouping_key = k := by
  unfold transform
  rw [keysOf_foldl]
  simp [keysOf]

lemma totalCount_addRecord (m : List (String × List HRecord)) (r : HRecord) :
    totalCount (addRecord m r) = totalCount m + 1 := by
  induction m with
  | nil => rfl
  | cons p rest ih =>
    obtain ⟨k', v⟩ := p
    by_cases hk : k' = r.grouping_key
    · simp [addRecord, hk, totalCount]
      omega
    · simp [addRecord, hk, totalCount] at *
      omega

lemma totalCount_foldl (l : List HRecord) (acc : List (String × List HRecord)) :
    totalCount (l.foldl addRecord acc) = totalCount acc + l.length := by
  induction l generalizing acc with
  | nil => simp
  | cons r t ih =>
    rw [List.foldl_cons, ih, totalCount_addRecord]
    simp [Nat.add_assoc, Nat.add_comm 1 t.length]

lemma totalCount_transform (l : List HRecord) :
    totalCount (transform l) = l.length := by
  unfold transform
  rw [totalCount_foldl]
  simp [totalCount]

lemma addRecord_values_ne_nil (m : List (String × List HRecord)) (r : HRecord)
    (hm : ∀ p ∈ m, p.2 ≠ []) : ∀ p ∈ addRecord m r, p.2 ≠ [] := by
  induction m with
  | nil =>
    intro p hp
    simp only [addRecord, List.mem_singleton] at hp
    subst hp
    simp
  | cons q rest ih =>
    obtain ⟨k', v⟩ := q
    intro p hp
    by_cases hk : k' = r.grouping_key
    · simp only [addRecord, if_pos hk, List.mem_cons] at hp
      rcases hp with rfl | hp
      · simp
      · exact hm p (List.mem_cons_of_mem _ hp)
    · simp only [addRecord, if_neg hk, List.mem_cons] at hp
      rcases hp with rfl | hp
      · exact hm _ (List.mem_cons_self _ _)
      · exact ih (fun q hq => hm q (List.mem_cons_of_mem _ hq)) p hp

lemma foldl_values_ne_nil (l : List HRecord) (acc : List (String × List HRecord))
    (hacc : ∀ p ∈ acc, p.2 ≠ []) : ∀ p ∈ l.foldl addRecord acc, p.2 ≠ [] := by
  induction l generalizing acc with
  | nil => exact hacc
  | cons r t ih =>
    rw [List.foldl_cons]
    exact ih _ (addRecord_values_ne_nil acc r hacc)

/-- C2: for any number of grouping workers `n >= 1`, any split `ws` of the
input stream `l` across the workers (each channel message is received by
exactly one worker, so the concatenation of the per-worker sequences is a
permutation of the stream), and any interleaving `σ` in which the map
insertions of the workers land, the grouped map agrees with the
single-threaded reference `transform l`: same keys, per-key record
sequences that are permutations of each other (in particular equal
per-key counts, each equal to the number of stream records carrying that
key), and the same total count (no record dropped, each inserted exactly
once). -/
theorem transform_parallel_refines (l σ : List HRecord) (n : Nat)
    (ws : List (List HRecord)) (hn : 1 ≤ n) (hws : ws.length = n)
    (hjoin : ws.flatten.Perm l) (hσ : σ.Perm ws.flatten) :
    (∀ k, (groupOf (transform σ) k).Perm (groupOf (transform l) k)
      ∧ (groupOf (transform σ) k).length =
          (l.filter (fun r => r.grouping_key == k)).length
      ∧ (k ∈ keysOf (transform σ) ↔ k ∈ keysOf (transform l)))
    ∧ totalCount (transform σ) = l.length := by
  have hperm : σ.Perm l := hσ.trans hjoin
  refine ⟨fun k => ⟨?_, ?_, ?_⟩, ?_⟩
  · rw [groupOf_transform, groupOf_transform]
    exact hperm.filter _
  · rw [groupOf_transform]
    exact (hperm.filter _).length_eq
  · rw [keysOf_transform, keysOf_transform]
    constructor
    · rintro ⟨r, hr, hk⟩
      exact ⟨r, hperm.subset hr, hk⟩
    · rintro ⟨r, hr, hk⟩
      exact ⟨r, hperm.symm.subset hr, hk⟩
  · rw [totalCount_transform, hperm.length_eq]

/-- C2 witness: two records delivered to two workers in swapped order. -/
theorem transform_parallel_refines_witness :
    (1 ≤ 2)
    ∧ ((∀ k, (groupOf (transform [⟨"b", none, []⟩, ⟨"a", none, []⟩]) k).Perm
          (groupOf (transform [⟨"a", none, []⟩, ⟨"b", none, []⟩]) k)
        ∧ (groupOf (transform [⟨"b", none, []⟩, ⟨"a", none, []⟩]) k).length =
            (([⟨"a", none, []⟩, ⟨"b", none, []⟩] : List HRecord).filter
              (fun r => r.grouping_key == k)).length
        ∧ (k ∈ keysOf (transform [⟨"b", none, []⟩, ⟨"a", none, []⟩]) ↔
            k ∈ keysOf (transform [⟨"a", none, []⟩, ⟨"b", none, []⟩])))
      ∧ totalCount (transform [⟨"b", none, []⟩, ⟨"a", none, []⟩]) =
          ([⟨"a", none, []⟩, ⟨"b", none, []⟩] : List HRecord).length) :=
  ⟨by decide,
    transform_parallel_refines [⟨"a", none, []⟩, ⟨"b", none, []⟩]
      [⟨"b", none, []⟩, ⟨"a", none, []⟩] 2 [[⟨"b", none, []⟩], [⟨"a", none, []⟩]]
      (by decide) rfl (by decide) (by decide)⟩

/-- C9: a grouping key with zero records never yields an entry — every key
of the grouped map holds at least one record, and `filter_entries` keeps
exactly the non-empty groups (defensively skipping empty ones). -/
theorem no_empty_groups :
    (∀ (l : List HRecord) (p : String × List HRecord), p ∈ transform l → p.2 ≠ [])
    ∧ (∀ (m : List (String × List HRecord)) (p : String × List HRecord),
        p ∈ filter_entries m → p.2 ≠ [])
    ∧ (∀ (m : List (String × List HRecord)) (p : String × List HRecord),
        p ∈ filter_entries m ↔ p ∈ m ∧ p.2 ≠ []) := by
  have hmem : ∀ (m : List (String × List HRecord)) (p : String × List HRecord),
      p ∈ filter_entries m ↔ p ∈ m ∧ p.2 ≠ [] := by
    intro m p
    unfold filter_entries
    rw [List.mem_insertionSort, List.mem_filter]
    simp [List.isEmpty_iff]
  refine ⟨fun l p hp => ?_, fun m p hp => ((hmem m p).1 hp).2, hmem⟩
  exact foldl_values_ne_nil l [] (by simp) p hp

/-- C9 witness: a concrete one-record stream and a concrete map with an
empty group. -/
theorem no_empty_groups_witness :
    (("a", [⟨"a", none, []⟩]) ∈ transform [⟨"a", none, []⟩]
      ∧ (("a", [⟨"a", none, []⟩]) : String × List HRecord).2 ≠ [])
    ∧ (("b", ([] : List HRecord)) ∈
          ([("b", ([] : List HRecord))] : List (String × List HRecord)) ∧
        ¬ ("b", ([] : List HRecord)) ∈ filter_entries [("b", ([] : List HRecord))]) :=
  ⟨⟨by decide, (no_empty_groups.1 [⟨"a", none, []⟩] ("a", [⟨"a", none, []⟩]) (by decide))⟩,
    ⟨by decide, fun hc => ((no_empty_groups.2.2 [("b", [])] ("b", [])).1 hc).2 rfl⟩⟩

/-! ## C3: record order inside a serialized group -/

lemma filter_orderedInsert {α : Type} (f : α → String) (k : String) (a : α) (m : List α) :
    (List.orderedInsert (fun x y => strLeB (f x) (f y) = true) a m).filter
        (fun x => f x == k)
      = if f a == k then a :: m.filter (fun x => f x == k)
        else m.filter (fun x => f x == k) := by
  induction m with
  | nil =>
    by_cases h : (f a == k) = true
    · simp [List.orderedInsert, List.filter, h]
    · simp [List.orderedInsert, List.filter, h]
  | cons b t ih =>
    by_cases hle : strLeB (f a) (f b) = true
    · rw [List.orderedInsert, if_pos hle]
      by_cases h : (f a == k) = true
      · simp [List.filter_cons, h]
      · simp [List.filter_cons, h]
    · rw [List.orderedInsert, if_neg hle]
      by_cases h : (f a == k) = true
      · have hfb : (f b == k) = false := by
          rcases Bool.eq_false_or_eq_true (f b == k) with hb | hb
          · exfalso
            have h1 : f a = k := by simpa using h
            have h2 : f b = k := by simpa using hb
            exact hle (by rw [h1, h2]; exact strLeB_refl k)
          · exact hb
        simp [List.filter_cons, hfb, ih, h]
      · simp [List.filter_cons, ih, h]

lemma filter_insertionSort {α : Type} (f : α → String) (k : String) (l : List α) :
    (List.insertionSort (fun x y => strLeB (f x) (f y) = true) l).filter
        (fun x => f x == k)
      = l.filter (fun x => f x == k) := by
  induction l with
  | nil => rfl
  | cons a t ih =>
    rw [List.insertionSort, filter_orderedInsert, ih]
    by_cases h : (f a == k) = true
    · simp [List.filter_cons, h]
    · simp [List.filter_cons, h]

lemma getD_map_sort_key (recs : List HRecord) (i : Nat) (hi : i < recs.length) :
    (recs.map HRecord.sort_key).getD i none = (recs.getD i default).sort_key := by
  rw [List.getD_eq_get?, List.getD_eq_get?, List.get?_map, List.get?_eq_get hi]
  rfl

/-- C3 (amended): the 7z sink serializes every group stably sorted in
ascending order of `sort_key()` with a missing key treated as the empty
string (so such records come first, and equal-key records keep their input
order: per-key filters are preserved); the zip sink serializes a
permutation of the group ascending in the `Option` ordering of the raw
sort keys, under which a record with no sort key precedes every record
with one — including the empty-string key — and equal-key order is not
guaranteed. -/
theorem sink_record_order (recs : List HRecord) :
    ((create_csv_buffer_order recs).Perm recs
      ∧ List.Pairwise (fun a b => strLeB (effKey a) (effKey b) = true)
          (create_csv_buffer_order recs)
      ∧ (∀ k, (create_csv_buffer_order recs).filter (fun r => effKey r == k) =
          recs.filter (fun r => effKey r == k)))
    ∧ ((create_mini_zip_order recs).Perm recs
      ∧ List.Pairwise (fun a b => optLeB a.sort_key b.sort_key = true)
          (create_mini_zip_order recs)) := by
  haveI hTot : IsTotal HRecord (fun a b => strLeB (effKey a) (effKey b) = true) :=
    ⟨fun a b => strLeB_total _ _⟩
  haveI hTrans : IsTrans HRecord (fun a b => strLeB (effKey a) (effKey b) = true) :=
    ⟨fun _ _ _ => strLeB_trans⟩
  refine ⟨⟨List.perm_insertionSort _ _, List.sorted_insertionSort _ _,
    fun k => filter_insertionSort effKey k recs⟩, ?_, ?_⟩
  · unfold create_mini_zip_order
    by_cases hany : recs.any (fun r => r.sort_key.isSome) = true
    · rw [if_pos hany]
      exact reorder_perm recs _ (List.perm_insertionSort _ _)
    · rw [if_neg hany]
  · unfold create_mini_zip_order
    by_cases hany : recs.any (fun r => r.sort_key.isSome) = true
    · rw [if_pos hany]
      haveI hTot2 : IsTotal Nat (idxLe (recs.map HRecord.sort_key)) :=
        ⟨fun i j => optLeB_total _ _⟩
      haveI hTrans2 : IsTrans Nat (idxLe (recs.map HRecord.sort_key)) :=
        ⟨fun _ _ _ => optLeB_trans⟩
      have hip : (List.insertionSort (idxLe (recs.map HRecord.sort_key))
          (List.range recs.length)).Perm (List.range recs.length) :=
        List.perm_insertionSort _ _
      rw [reorder_eq_map recs _ hip]
      have hsorted : List.Pairwise (idxLe (recs.map HRecord.sort_key))
          (List.insertionSort (idxLe (recs.map HRecord.sort_key))
            (List.range recs.length)) :=
        List.sorted_insertionSort _ _
      have hmemsorted := List.Pairwise.and_mem.1 hsorted
      refine List.Pairwise.map _ ?_ hmemsorted
      rintro i j ⟨hi, hj, hij⟩
      have hi' : i < recs.length := List.mem_range.1 (hip.subset hi)
      have hj' : j < recs.length := List.mem_range.1 (hip.subset hj)
      unfold idxLe at hij
      rwa [getD_map_sort_key recs i hi', getD_map_sort_key recs j hj'] at hij
    · rw [if_neg hany]
      have hall : ∀ r ∈ recs, r.sort_key = none := by
        intro r hr
        have := (List.any_eq_true).not.1 hany
        push_neg at this
        have h2 := this r hr
        cases hsk : r.sort_key with
        | none => rfl
        | some v =>
          rw [hsk] at h2
          simp at h2
      exact List.pairwise_of_forall_mem_list (fun a ha b _ => by
        rw [hall a ha]
        rfl)

/-- C3 counterexample: in the zip sink, a record whose sort key is the
empty string and a record with no sort key have equal effective keys under
the claim's reading, yet `create_mini_zip` swaps them (`None` sorts before
`Some("")`), so the serialization is neither stable nor by the
empty-string-defaulted key. -/
theorem sink_record_order_counterexample :
    create_mini_zip_order [⟨"g", some "", [("x", "1")]⟩, ⟨"g", none, []⟩] =
      [⟨"g", none, []⟩, ⟨"g", some "", [("x", "1")]⟩]
    ∧ effKey ⟨"g", some "", [("x", "1")]⟩ = effKey ⟨"g", none, []⟩
    ∧ create_mini_zip_order [⟨"g", some "", [("x", "1")]⟩, ⟨"g", none, []⟩] ≠
        [⟨"g", some "", [("x", "1")]⟩, ⟨"g", none, []⟩] := by
  refine ⟨by decide, rfl, by decide⟩

/-! ## C4: order of entries in the final container -/

/-- C4 (amended): the sink serializes the non-empty groups from the
key-sorted `filter_entries` list, and every parallel production schedule
delivers to the single merge writer exactly those entries (one `.csv` member
per group, a permutation of the key-sorted list); but the final container's
member order is the channel-arrival order of the parallel producers, which
is not guaranteed to be the lexicographic one. -/
theorem sink_container_entries (m : List (String × List HRecord))
    (arrival : List (String × List HRecord))
    (harr : arrival.Perm (filter_entries m)) :
    (mergerNames arrival).Perm ((filter_entries m).map (fun p => p.1 ++ ".csv"))
    ∧ List.Pairwise (fun a b => strLeB a.1 b.1 = true) (filter_entries m)
    ∧ ((m.map Prod.fst).Nodup → ((filter_entries m).map Prod.fst).Nodup) := by
  haveI hTot : IsTotal (String × List HRecord) (fun a b => strLeB a.1 b.1 = true) :=
    ⟨fun a b => strLeB_total _ _⟩
  haveI hTrans : IsTrans (String × List HRecord) (fun a b => strLeB a.1 b.1 = true) :=
    ⟨fun _ _ _ => strLeB_trans⟩
  refine ⟨harr.map _, List.sorted_insertionSort _ _, fun hnd => ?_⟩
  have hfp : (filter_entries m).Perm (m.filter (fun p => !p.2.isEmpty)) :=
    List.perm_insertionSort _ _
  have hsub : ((m.filter (fun p => !p.2.isEmpty)).map Prod.fst).Sublist
      (m.map Prod.fst) := (List.filter_sublist m).map Prod.fst
  exact ((hfp.map Prod.fst).nodup_iff).2 (hsub.nodup hnd)

/-- C4 witness: two groups, arrival in the sorted order itself. -/
theorem sink_container_entries_witness :
    (([("a", [⟨"a", none, []⟩]), ("b", [⟨"b", none, []⟩])] :
        List (String × List HRecord)).Perm
      (filter_entries [("b", [⟨"b", none, []⟩]), ("a", [⟨"a", none, []⟩])]))
    ∧ ((mergerNames [("a", [⟨"a", none, []⟩]), ("b", [⟨"b", none, []⟩])]).Perm
        ((filter_entries [("b", [⟨"b", none, []⟩]), ("a", [⟨"a", none, []⟩])]).map
          (fun p => p.1 ++ ".csv"))
      ∧ List.Pairwise (fun a b => strLeB a.1 b.1 = true)
          (filter_entries [("b", [⟨"b", none, []⟩]), ("a", [⟨"a", none, []⟩])])
      ∧ ((([("b", [⟨"b", none, []⟩]), ("a", [⟨"a", none, []⟩])] :
            List (String × List HRecord)).map Prod.fst).Nodup →
          ((filter_entries [("b", [⟨"b", none, []⟩]),
              ("a", [⟨"a", none, []⟩])]).map Prod.fst).Nodup)) :=
  ⟨by decide,
    sink_container_entries [("b", [⟨"b", none, []⟩]), ("a", [⟨"a", none, []⟩])]
      [("a", [⟨"a", none, []⟩]), ("b", [⟨"b", none, []⟩])] (by decide)⟩

/-- C4 counterexample: a legal arrival order (a permutation of the sorted
entries, as produced by an adversarial parallel schedule) writes the
members as `b.csv` before `a.csv`, which is not lexicographic. -/
theorem sink_container_entries_counterexample :
    (([("b", [⟨"b", none, []⟩]), ("a", [⟨"a", none, []⟩])] :
        List (String × List HRecord)).Perm
      (filter_entries [("a", [⟨"a", none, []⟩]), ("b", [⟨"b", none, []⟩])]))
    ∧ mergerNames [("b", [⟨"b", none, []⟩]), ("a", [⟨"a", none, []⟩])] =
        ["b.csv", "a.csv"]
    ∧ strLeB "b.csv" "a.csv" = false
    ∧ ¬ List.Pairwise (fun a b => strLeB a b = true)
        (mergerNames [("b", [⟨"b", none, []⟩]), ("a", [⟨"a", none, []⟩])]) := by
  refine ⟨by decide, by decide, by decide, fun hp => ?_⟩
  have := List.rel_of_pairwise_cons hp (List.mem_singleton.2 rfl)
  simp only [mergerNames] at this
  revert this
  decide

/-! ## C7: dynamic header union -/

lemma mem_headerSet_foldl (recs : List HRecord) (acc : List String) (h : String) :
    h ∈ recs.foldl (fun a r => a ++ r.header_keys) acc ↔
      h ∈ acc ∨ ∃ r ∈ recs, h ∈ r.header_keys := by
  induction recs generalizing acc with
  | nil => simp
  | cons r t ih =>
    rw [List.foldl_cons, ih]
    simp only [List.mem_append, List.mem_cons]
    constructor
    · rintro (⟨ha | hr⟩ | ⟨s, hs, hk⟩)
      · exact Or.inl ha
      · exact Or.inr ⟨r, Or.inl rfl, hr⟩
      · exact Or.inr ⟨s, Or.inr hs, hk⟩
    · rintro (ha | ⟨s, (rfl | hs), hk⟩)
      · exact Or.inl (Or.inl ha)
      · exact Or.inl (Or.inr hk)
      · exact Or.inr ⟨s, hs, hk⟩

/-- C7: for a non-empty group the serialized header row is exactly the
union of the field names of the group's records — each name exactly once,
in ascending (lexicographic) order — and a record lacking one of those
fields renders the corresponding cell as the empty string. -/
theorem dynamic_header_union (recs : List HRecord) (hne : recs ≠ []) :
    (∀ h, h ∈ headersOf recs ↔ ∃ r ∈ recs, h ∈ r.header_keys)
    ∧ List.Pairwise (fun a b => strLeB a b = true) (headersOf recs)
    ∧ (headersOf recs).Nodup
    ∧ (∀ (r : HRecord) (h : String), h ∉ r.header_keys → cellOf r h = "")
    ∧ (∀ (r : HRecord) (h : String), h ∈ headersOf recs →
        renderRow (headersOf recs) r ≠ []) := by
  haveI hTot : IsTotal String (fun a b => strLeB a b = true) :=
    ⟨fun a b => strLeB_total _ _⟩
  haveI hTrans : IsTrans String (fun a b => strLeB a b = true) :=
    ⟨fun _ _ _ => strLeB_trans⟩
  have hperm : (headersOf recs).Perm (headerSet recs) := List.perm_insertionSort _ _
  refine ⟨fun h => ?_, List.sorted_insertionSort _ _, ?_, fun r h hnot => ?_, ?_⟩
  · unfold headersOf
    rw [List.mem_insertionSort]
    unfold headerSet
    rw [List.mem_dedup, mem_headerSet_foldl]
    simp
  · exact (hperm.nodup_iff).2 (List.nodup_dedup _)
  · unfold cellOf
    have hf : r.fields.find? (fun p => p.1 == h) = none := by
      rw [List.find?_eq_none]
      intro p hp hcontra
      exact hnot (by
        have : p.1 = h := by simpa using hcontra
        exact this ▸ List.mem_map_of_mem Prod.fst hp)
    rw [hf]
    rfl
  · intro r h hh hcontra
    unfold renderRow at hcontra
    have : headersOf recs = [] := List.map_eq_nil.1 hcontra
    rw [this] at hh
    exact List.not_mem_nil h hh

/-- C7 witness: records with fields `{a,b}` and `{b,c}` give the header row
`[a, b, c]`; the first record lacks `c` and renders it as the empty cell. -/
theorem dynamic_header_union_witness :
    (([⟨"g", none, [("a", "1"), ("b", "2")]⟩, ⟨"g", none, [("b", "3"), ("c", "4")]⟩] :
        List HRecord) ≠ [])
    ∧ ("c" ∈ headersOf [⟨"g", none, [("a", "1"), ("b", "2")]⟩,
        ⟨"g", none, [("b", "3"), ("c", "4")]⟩] ↔
      ∃ r ∈ ([⟨"g", none, [("a", "1"), ("b", "2")]⟩,
          ⟨"g", none, [("b", "3"), ("c", "4")]⟩] : List HRecord),
        "c" ∈ r.header_keys)
    ∧ headersOf [⟨"g", none, [("a", "1"), ("b", "2")]⟩,
        ⟨"g", none, [("b", "3"), ("c", "4")]⟩] = ["a", "b", "c"]
    ∧ cellOf ⟨"g", none, [("a", "1"), ("b", "2")]⟩ "c" = ""
    ∧ renderRow ["a", "b", "c"] ⟨"g", none, [("a", "1"), ("b", "2")]⟩ = ["1", "2", ""] :=
  ⟨by decide,
    (dynamic_header_union [⟨"g", none, [("a", "1"), ("b", "2")]⟩,
      ⟨"g", none, [("b", "3"), ("c", "4")]⟩] (by decide)).1 "c",
    by decide,
    (dynamic_header_union [⟨"g", none, [("a", "1"), ("b", "2")]⟩,
      ⟨"g", none, [("b", "3"), ("c", "4")]⟩] (by decide)).2.2.2.1
      ⟨"g", none, [("a", "1"), ("b", "2")]⟩ "c" (by decide),
    by decide⟩

/-! ## C1: boundary safety of the chunk scanners -/

lemma skipWsFuel_ge (data : List Nat) : ∀ (fuel idx : Nat), idx ≤ skipWsFuel data fuel idx := by
  intro fuel
  induction fuel with
  | zero => intro idx; exact Nat.le_refl idx
  | succ n ih =>
    intro idx
    rw [skipWsFuel]
    by_cases hc : idx < data.length ∧ isAsciiWhitespaceB (data.getD idx 0) = true
    · rw [if_pos hc]
      exact Nat.le_trans (Nat.le_succ idx) (ih (idx + 1))
    · rw [if_neg hc]

lemma skip_whitespace_ge (data : List Nat) (start : Nat) :
    start ≤ skip_whitespace data start :=
  skipWsFuel_ge data _ start

lemma is_element_start_get (data : List Nat) (p : Nat)
    (h : is_element_start (data.drop p) = true) : data.get? p = some 60 := by
  have hdrop := List.get?_drop data p 0
  cases hd : data.drop p with
  | nil => rw [hd] at h; simp [is_element_start] at h
  | cons a tl =>
    cases tl with
    | nil => rw [hd] at h; simp [is_element_start] at h
    | cons b tl2 =>
      rw [hd] at h
      simp only [is_element_start, Bool.and_eq_true, beq_iff_eq] at h
      rw [hd] at hdrop
      rw [Nat.add_zero] at hdrop
      rw [← hdrop]
      simp [h.1]

lemma advance_some (data : List Nat) (start p : Nat)
    (h : advance_to_next_element data start = some p) :
    start ≤ p ∧ p < data.length ∧ data.get? p = some 60 := by
  unfold advance_to_next_element at h
  have h' : (if skip_whitespace data start < data.length ∧
      is_element_start (List.drop (skip_whitespace data start) data) = true then
        some (skip_whitespace data start) else none) = some p := h
  split at h'
  · rename_i hc
    cases h'
    exact ⟨skip_whitespace_ge data start, hc.1, is_element_start_get data _ hc.2⟩
  · cases h'

lemma fbaFuel_some (data : List Nat) : ∀ (fuel start p : Nat),
    fbaFuel data fuel start = some p →
    start < p ∧ p < data.length ∧ data.get? p = some 60 := by
  intro fuel
  induction fuel with
  | zero => intro start p h; cases h
  | succ n ih =>
    intro start p h
    rw [fbaFuel] at h
    by_cases hs : start < data.length
    · rw [if_pos hs] at h
      by_cases hb : (data.getD start 0 == 62) = true
      · rw [if_pos hb] at h
        cases hadv : advance_to_next_element data (start + 1) with
        | some pos =>
          rw [hadv] at h
          cases h
          obtain ⟨hge, hlt, hel⟩ := advance_some data (start + 1) p hadv
          exact ⟨by omega, hlt, hel⟩
        | none =>
          rw [hadv] at h
          obtain ⟨h1, h2, h3⟩ := ih (start + 1) p h
          exact ⟨by omega, h2, h3⟩
      · rw [if_neg hb] at h
        obtain ⟨h1, h2, h3⟩ := ih (start + 1) p h
        exact ⟨by omega, h2, h3⟩
    · rw [if_neg hs] at h
      cases h

lemma find_boundary_after_some (data : List Nat) (start p : Nat)
    (h : find_boundary_after data start = some p) :
    start < p ∧ p < data.length ∧ data.get? p = some 60 :=
  fbaFuel_some data _ start p h

lemma fcbLoopFuel_spec (content : List Nat) : ∀ (fuel pos : Nat) (acc : List Nat),
    ∃ l, fcbLoopFuel content fuel pos acc = acc ++ l
      ∧ List.Chain' (· < ·) (pos :: l)
      ∧ ∀ b ∈ l, b < content.length ∧ content.get? b = some 60 := by
  intro fuel
  induction fuel with
  | zero =>
    intro pos acc
    exact ⟨[], by simp [fcbLoopFuel], List.chain'_singleton pos, by simp⟩
  | succ n ih =>
    intro pos acc
    rw [fcbLoopFuel_succ]
    by_cases hp : pos < content.length
    · rw [if_pos hp]
      cases hfb : find_boundary_after content (min (pos + CHUNK_SIZE) content.length) with
      | none => exact ⟨[], by simp, List.chain'_singleton pos, by simp⟩
      | some bp =>
        obtain ⟨hgt, hlt', h60⟩ := find_boundary_after_some content _ bp hfb
        dsimp only
        by_cases hlt : bp < content.length
        · rw [if_pos hlt]
          obtain ⟨l', h1, h2, h3⟩ := ih bp (acc ++ [bp])
          refine ⟨bp :: l', ?_, ?_, ?_⟩
          · rw [h1, List.append_assoc, List.singleton_append]
          · rw [List.chain'_cons]
            have hmin : pos ≤ min (pos + CHUNK_SIZE) content.length :=
              Nat.le_min.2 ⟨Nat.le_add_right pos CHUNK_SIZE, Nat.le_of_lt hp⟩
            exact ⟨by omega, h2⟩
          · intro b hb
            rcases List.mem_cons.1 hb with rfl | hb'
            · exact ⟨hlt, h60⟩
            · exact h3 b hb'
        · rw [if_neg hlt]
          exact ⟨[], by simp, List.chain'_singleton pos, by simp⟩
    · rw [if_neg hp]
      exact ⟨[], by simp, List.chain'_singleton pos, by simp⟩

lemma find_chunk_boundaries_structure (content : List Nat) (hne : content ≠ []) :
    ∃ l, find_chunk_boundaries content = (0 :: l) ++ [content.length]
      ∧ List.Chain' (· < ·) ((0 :: l) ++ [content.length])
      ∧ ∀ b ∈ l, b < content.length ∧ content.get? b = some 60 := by
  have hpos : 0 < content.length := List.length_pos.2 hne
  obtain ⟨l, h1, h2, h3⟩ := fcbLoopFuel_spec content (content.length + 1) 0 [0]
  rw [List.singleton_append] at h1
  have hmem_lt : ∀ x ∈ (0 :: l), x < content.length := by
    intro x hx
    rcases List.mem_cons.1 hx with rfl | hx'
    · exact hpos
    · exact (h3 x hx').1
  have hlast : ((0 :: l : List Nat).getLast? == some content.length) = false := by
    cases hgl : (0 :: l : List Nat).getLast? with
    | none => rfl
    | some x =>
      have hx : x ∈ (0 :: l : List Nat) := List.mem_of_mem_getLast? hgl
      have := hmem_lt x hx
      simp only [beq_eq_false_iff_ne, ne_eq, Option.some.injEq]
      omega
  refine ⟨l, ?_, ?_, h3⟩
  · unfold find_chunk_boundaries
    rw [h1]
    simp [hlast]
  · rw [List.chain'_append]
    refine ⟨h2, List.chain'_singleton _, ?_⟩
    intro x hx y hy
    simp only [List.head?_cons, Option.mem_def, Option.some.injEq] at hy
    subst hy
    exact hmem_lt x (List.mem_of_mem_getLast? hx)

lemma ahScanFuel_succ (content : List Nat) (pos fuel bp : Nat) :
    ahScanFuel content pos (fuel + 1) bp =
      if pos < bp ∧ bp < content.length then
        if content.getD bp 0 == 62 then
          if skip_whitespace content (bp + 1) < content.length ∧
              content.getD (skip_whitespace content (bp + 1)) 0 == 60 ∧
              is_target_element_start
                (content.drop (skip_whitespace content (bp + 1))) = true then
            skip_whitespace content (bp + 1)
          else ahScanFuel content pos fuel (bp + 1)
        else ahScanFuel content pos fuel (bp + 1)
      else bp := rfl

lemma ahScanFuel_spec (content : List Nat) (pos : Nat) : ∀ (fuel bp : Nat),
    content.length - bp ≤ fuel → pos < bp →
    pos < ahScanFuel content pos fuel bp ∧
    (ahScanFuel content pos fuel bp < content.length →
      content.get? (ahScanFuel content pos fuel bp) = some 60) := by
  intro fuel
  induction fuel with
  | zero =>
    intro bp hf hpb
    rw [ahScanFuel]
    exact ⟨hpb, fun hlt => absurd hlt (by omega)⟩
  | succ n ih =>
    intro bp hf hpb
    rw [ahScanFuel_succ]
    by_cases hc : pos < bp ∧ bp < content.length
    · rw [if_pos hc]
      by_cases hb : (content.getD bp 0 == 62) = true
      · rw [if_pos hb]
        by_cases hfound : skip_whitespace content (bp + 1) < content.length ∧
            content.getD (skip_whitespace content (bp + 1)) 0 == 60 ∧
            is_target_element_start
              (content.drop (skip_whitespace content (bp + 1))) = true
        · rw [if_pos hfound]
          have hge : bp + 1 ≤ skip_whitespace content (bp + 1) :=
            skip_whitespace_ge content (bp + 1)
          refine ⟨by omega, fun _ => ?_⟩
          have h60 : content.getD (skip_whitespace content (bp + 1)) 0 = 60 := by
            simpa using hfound.2.1
          rw [List.getD_eq_get?] at h60
          cases hq : content.get? (skip_whitespace content (bp + 1)) with
          | none => rw [hq] at h60; simp at h60
          | some v =>
            rw [hq] at h60
            simp only [Option.getD_some] at h60
            rw [h60]
        · rw [if_neg hfound]
          exact ih (bp + 1) (by omega) (by omega)
      · rw [if_neg hb]
        exact ih (bp + 1) (by omega) (by omega)
    · rw [if_neg hc]
      exact ⟨hpb, fun hlt => absurd hlt (by omega)⟩

lemma ahScanBoundary_spec (content : List Nat) (pos bp : Nat) (hpb : pos < bp) :
    pos < ahScanBoundary content pos bp ∧
    (ahScanBoundary content pos bp < content.length →
      content.get? (ahScanBoundary content pos bp) = some 60) :=
  ahScanFuel_spec content pos (content.length - bp) bp (Nat.le_refl _) hpb

lemma ahFcbLoopFuel_spec (content : List Nat) : ∀ (fuel pos : Nat) (acc : List Nat),
    ∃ l, ahFcbLoopFuel content fuel pos acc = acc ++ l
      ∧ List.Chain' (· < ·) (pos :: l)
      ∧ ∀ b ∈ l, b < content.length ∧ content.get? b = some 60 := by
  intro fuel
  induction fuel with
  | zero =>
    intro pos acc
    exact ⟨[], by simp [ahFcbLoopFuel], List.chain'_singleton pos, by simp⟩
  | succ n ih =>
    intro pos acc
    rw [ahFcbLoopFuel_succ]
    by_cases hp : pos < content.length
    · rw [if_pos hp]
      by_cases hpush : pos < ahScanBoundary content pos (min (pos + AH_CHUNK_SIZE) content.length) ∧
          ahScanBoundary content pos (min (pos + AH_CHUNK_SIZE) content.length) < content.length
      · rw [if_pos hpush]
        have htg : pos < min (pos + AH_CHUNK_SIZE) content.length :=
          Nat.lt_min.2 ⟨by simp [AH_CHUNK_SIZE], hp⟩
        obtain ⟨hgt, h60⟩ := ahScanBoundary_spec content pos _ htg
        obtain ⟨l', h1, h2, h3⟩ :=
          ih (ahScanBoundary content pos (min (pos + AH_CHUNK_SIZE) content.length))
            (acc ++ [ahScanBoundary content pos (min (pos + AH_CHUNK_SIZE) content.length)])
        refine ⟨ahScanBoundary content pos (min (pos + AH_CHUNK_SIZE) content.length) :: l',
          ?_, ?_, ?_⟩
        · rw [h1, List.append_assoc, List.singleton_append]
        · rw [List.chain'_cons]
          exact ⟨hpush.1, h2⟩
        · intro b hb
          rcases List.mem_cons.1 hb with rfl | hb'
          · exact ⟨hpush.2, h60 hpush.2⟩
          · exact h3 b hb'
      · rw [if_neg hpush]
        exact ⟨[], by simp, List.chain'_singleton pos, by simp⟩
    · rw [if_neg hp]
      exact ⟨[], by simp, List.chain'_singleton pos, by simp⟩

lemma ah_find_chunk_boundaries_structure (content : List Nat) (hne : content ≠ []) :
    ∃ l, ah_find_chunk_boundaries content = (0 :: l) ++ [content.length]
      ∧ List.Chain' (· < ·) ((0 :: l) ++ [content.length])
      ∧ ∀ b ∈ l, b < content.length ∧ content.get? b = some 60 := by
  have hpos : 0 < content.length := List.length_pos.2 hne
  obtain ⟨l, h1, h2, h3⟩ := ahFcbLoopFuel_spec content (content.length + 1) 0 [0]
  rw [List.singleton_append] at h1
  have hmem_lt : ∀ x ∈ (0 :: l), x < content.length := by
    intro x hx
    rcases List.mem_cons.1 hx with rfl | hx'
    · exact hpos
    · exact (h3 x hx').1
  have hlast : ((0 :: l : List Nat).getLast? == some content.length) = false := by
    cases hgl : (0 :: l : List Nat).getLast? with
    | none => rfl
    | some x =>
      have hx : x ∈ (0 :: l : List Nat) := List.mem_of_mem_getLast? hgl
      have := hmem_lt x hx
      simp only [beq_eq_false_iff_ne, ne_eq, Option.some.injEq]
      omega
  refine ⟨l, ?_, ?_, h3⟩
  · unfold ah_find_chunk_boundaries
    rw [h1]
    simp [hlast]
  · rw [List.chain'_append]
    refine ⟨h2, List.chain'_singleton _, ?_⟩
    intro x hx y hy
    simp only [List.head?_cons, Option.mem_def, Option.some.injEq] at hy
    subst hy
    exact hmem_lt x (List.mem_of_mem_getLast? hx)

lemma length_join_replicate (N : Nat) (e : List Nat) :
    ((List.replicate N e).flatten).length = N * e.length := by
  induction N with
  | zero => simp
  | succ n ih =>
    rw [List.replicate_succ, List.flatten_cons, List.length_append, ih, Nat.succ_mul]
    omega

lemma get?_join_replicate (e : List Nat) : ∀ (N i : Nat), i < N * e.length →
    ((List.replicate N e).flatten).get? i = e.get? (i % e.length) := by
  intro N
  induction N with
  | zero => intro i h; omega
  | succ n ih =>
    intro i h
    rw [List.replicate_succ, List.flatten_cons]
    by_cases hi : i < e.length
    · rw [List.get?_append hi, Nat.mod_eq_of_lt hi]
    · push_neg at hi
      rw [Nat.succ_mul] at h
      rw [List.get?_append_right hi, ih (i - e.length) (by omega)]
      conv_rhs => rw [← Nat.sub_add_cancel hi]
      rw [Nat.add_mod_right]

lemma boundary_multiple (e : List Nat) (N b : Nat)
    (hse : isSelfClosingElem e = true)
    (hb : ((List.replicate N e).flatten).get? b = some 60)
    (hlt : b < ((List.replicate N e).flatten).length) :
    ∃ k, k < N ∧ b = k * e.length := by
  have hse' := hse
  simp only [isSelfClosingElem, Bool.and_eq_true, decide_eq_true_eq] at hse'
  have hlen4 : 4 ≤ e.length := hse'.1.1.1.1.1
  have hall := hse'.2
  rw [List.all_eq_true] at hall
  have hepos : 0 < e.length := by omega
  rw [length_join_replicate] at hlt
  rw [get?_join_replicate e N b hlt] at hb
  have hmod : b % e.length < e.length := Nat.mod_lt _ hepos
  by_cases hz : b % e.length = 0
  · refine ⟨b / e.length, (Nat.div_lt_iff_lt_mul hepos).2 (by omega), ?_⟩
    exact (Nat.div_mul_cancel (Nat.dvd_of_mod_eq_zero hz)).symm
  · exfalso
    have hi := hall (b % e.length) (List.mem_range.2 hmod)
    simp only [Bool.or_eq_true, beq_iff_eq, Bool.not_eq_true', beq_eq_false_iff_ne,
      ne_eq] at hi
    rcases hi with hi | hi
    · exact hz hi
    · apply hi
      rw [List.getD_eq_get?, hb]
      rfl

/-- C1: for every non-empty input both chunk scanners return a boundary
list that starts at 0, ends at the input length and is strictly
increasing; and when the input is `N` concatenated copies of a fixed
self-closing element, every interior boundary lands exactly on the start
byte of one of the copies (offset `k * elem.length` with `k < N`). -/
theorem find_chunk_boundaries_safe (content : List Nat) (hne : content ≠ []) :
    ((find_chunk_boundaries content).head? = some 0
      ∧ (find_chunk_boundaries content).getLast? = some content.length
      ∧ List.Chain' (· < ·) (find_chunk_boundaries content)
      ∧ ∀ (elem : List Nat) (N : Nat), isSelfClosingElem elem = true →
          content = (List.replicate N elem).flatten →
          ∀ b ∈ find_chunk_boundaries content, b ≠ 0 → b ≠ content.length →
            ∃ k, k < N ∧ b = k * elem.length)
    ∧ ((ah_find_chunk_boundaries content).head? = some 0
      ∧ (ah_find_chunk_boundaries content).getLast? = some content.length
      ∧ List.Chain' (· < ·) (ah_find_chunk_boundaries content)
      ∧ ∀ (elem : List Nat) (N : Nat), isSelfClosingElem elem = true →
          content = (List.replicate N elem).flatten →
          ∀ b ∈ ah_find_chunk_boundaries content, b ≠ 0 → b ≠ content.length →
            ∃ k, k < N ∧ b = k * elem.length) := by
  obtain ⟨l, h1, h2, h3⟩ := find_chunk_boundaries_structure content hne
  obtain ⟨l', h1', h2', h3'⟩ := ah_find_chunk_boundaries_structure content hne
  refine ⟨⟨?_, ?_, ?_, ?_⟩, ?_, ?_, ?_, ?_⟩
  · rw [h1, List.cons_append, List.head?_cons]
  · rw [h1, List.getLast?_concat]
  · rw [h1]
    exact h2
  · intro elem N hse hrep b hb hb0 hblen
    rw [h1] at hb
    rcases List.mem_append.1 hb with hb' | hb'
    · rcases List.mem_cons.1 hb' with rfl | hbl
      · exact absurd rfl hb0
      · obtain ⟨hlt, h60⟩ := h3 b hbl
        subst hrep
        exact boundary_multiple elem N b hse h60 hlt
    · rw [List.mem_singleton] at hb'
      exact absurd hb' hblen
  · rw [h1', List.cons_append, List.head?_cons]
  · rw [h1', List.getLast?_concat]
  · rw [h1']
    exact h2'
  · intro elem N hse hrep b hb hb0 hblen
    rw [h1'] at hb
    rcases List.mem_append.1 hb with hb' | hb'
    · rcases List.mem_cons.1 hb' with rfl | hbl
      · exact absurd rfl hb0
      · obtain ⟨hlt, h60⟩ := h3' b hbl
        subst hrep
        exact boundary_multiple elem N b hse h60 hlt
    · rw [List.mem_singleton] at hb'
      exact absurd hb' hblen

/-- C1 witness: two concatenated copies of `<a/>` (the whole input is
shorter than a chunk, so the interior-boundary clause is exercised
vacuously and the endpoint and monotonicity clauses concretely). -/
theorem find_chunk_boundaries_safe_witness :
    GptOs.strBytes "<a/><a/>" ≠ []
    ∧ (((find_chunk_boundaries (strBytes "<a/><a/>")).head? = some 0
      ∧ (find_chunk_boundaries (strBytes "<a/><a/>")).getLast? =
          some (strBytes "<a/><a/>").length
      ∧ List.Chain' (· < ·) (find_chunk_boundaries (strBytes "<a/><a/>"))
      ∧ ∀ (elem : List Nat) (N : Nat), isSelfClosingElem elem = true →
          strBytes "<a/><a/>" = (List.replicate N elem).flatten →
          ∀ b ∈ find_chunk_boundaries (strBytes "<a/><a/>"), b ≠ 0 →
            b ≠ (strBytes "<a/><a/>").length →
            ∃ k, k < N ∧ b = k * elem.length)
    ∧ ((ah_find_chunk_boundaries (strBytes "<a/><a/>")).head? = some 0
      ∧ (ah_find_chunk_boundaries (strBytes "<a/><a/>")).getLast? =
          some (strBytes "<a/><a/>").length
      ∧ List.Chain' (· < ·) (ah_find_chunk_boundaries (strBytes "<a/><a/>"))
      ∧ ∀ (elem : List Nat) (N : Nat), isSelfClosingElem elem = true →
          strBytes "<a/><a/>" = (List.replicate N elem).flatten →
          ∀ b ∈ ah_find_chunk_boundaries (strBytes "<a/><a/>"), b ≠ 0 →
            b ≠ (strBytes "<a/><a/>").length →
            ∃ k, k < N ∧ b = k * elem.length)) :=
  ⟨by decide, find_chunk_boundaries_safe (strBytes "<a/><a/>") (by decide)⟩

end GptOs

